import Mathlib

/-!
Verification of the files2llm export pipeline (`src/App.js`).

The development shallowly embeds the non-UI logic of the single source file:
the XML / Markdown / JSON format converters (`convertToXML`,
`convertToMarkdown`, `JSON.stringify(data, null, 2)` under `getExportOutput`),
the clipboard writer `autoCopyToClipboard` with its two strategies, and the
batch file extraction `readAndSetFiles` built on `Promise.all`.

Strings are modelled by Lean `String` (a structure over `List Char`); most
proofs work on the underlying character lists.
-/

/-- Element of the `filesData` array: the code builds objects
`\x7b fileName: file.name, content \x7d` in `readAndSetFiles`. -/
structure FileRecord where
  fileName : String
  content : String
deriving DecidableEq, Repr

/-! ## XML converter (`convertToXML`, lines 19–37) -/

/-- Model of JavaScript `s.replace(/p/g, r)` for a single-character pattern
`p`: every occurrence of the character `p` is replaced by `r`.  Since the
pattern is one character long, global left-to-right replacement is exactly
character-wise substitution. -/
def replaceChar (p : Char) (r : List Char) (s : List Char) : List Char :=
  s.flatMap (fun c => if c = p then r else [c])

/-- The escaping applied to `file.content` inside `convertToXML`: the five
chained `.replace` calls, in source order (`&` first, then `<`, `>`, `"`, `'`). -/
def escapeXmlContent (s : String) : String :=
  ⟨replaceChar '\x27' "&apos;".data
    (replaceChar '"' "&quot;".data
      (replaceChar '>' "&gt;".data
        (replaceChar '<' "&lt;".data
          (replaceChar '&' "&amp;".data s.data))))⟩

/-- `convertToXML`: starts from `"<files>"`, appends
`"\n  <file name=\"NAME\">ESCAPED</file>"` per record (the `name` attribute is
not escaped in the source), then appends `"\n</files>"`. -/
def convertToXML (filesData : List FileRecord) : String :=
  let xml := filesData.foldl
    (fun xml file =>
      xml ++ "\n  <file name=\"" ++ file.fileName ++ "\">"
        ++ escapeXmlContent file.content ++ "</file>")
    "<files>"
  xml ++ "\n</files>"

/-! ## Markdown converter (`convertToMarkdown`, lines 42–53) -/

/-- ECMAScript `String.prototype.trim` whitespace: WhiteSpace plus
LineTerminator code points. -/
def isJsWhitespace (c : Char) : Bool :=
  c = ' ' || c = '\t' || c = '\n' || c = '\r' || c = '\x0b' || c = '\x0c' ||
  c = '\xa0' || c = '\u1680' ||
  ('\u2000' ≤ c && c ≤ '\u200a') ||
  c = '\u2028' || c = '\u2029' || c = '\u202f' || c = '\u205f' ||
  c = '\u3000' || c = '\ufeff'

/-- Model of JavaScript `s.trim()`: removes leading and trailing whitespace. -/
def jsTrim (s : String) : String :=
  ⟨(((s.data.dropWhile isJsWhitespace).reverse.dropWhile isJsWhitespace).reverse)⟩

/-- `convertToMarkdown`: accumulates
`"## NAME\n` + fence + `\nCONTENT\n` + fence + `\n\n"` per record, then calls
`.trim()` on the result. -/
def convertToMarkdown (filesData : List FileRecord) : String :=
  let md := filesData.foldl
    (fun md file =>
      md ++ "## " ++ file.fileName ++ "\n```\n" ++ file.content ++ "\n```\n\n")
    ""
  jsTrim md

/-! ## JSON export: `JSON.stringify(data, null, 2)` (line 112)

The `filesData` array is a list of objects with exactly the two string
properties `fileName` and `content`, so the serialization is fixed by
ECMA-262 `JSON.stringify` with gap `"  "` (two spaces): strings are quoted
with `QuoteJSONString` escaping, each object prints its properties on
indented lines, the array prints its elements on indented lines, and the
empty array prints as `[]`. -/

/-- Lowercase hexadecimal digit, as produced by `QuoteJSONString`'s
`UnicodeEscape`. -/
def hexDigitChar (n : Nat) : Char :=
  if n = 0 then '0' else if n = 1 then '1' else if n = 2 then '2'
  else if n = 3 then '3' else if n = 4 then '4' else if n = 5 then '5'
  else if n = 6 then '6' else if n = 7 then '7' else if n = 8 then '8'
  else if n = 9 then '9' else if n = 10 then 'a' else if n = 11 then 'b'
  else if n = 12 then 'c' else if n = 13 then 'd' else if n = 14 then 'e'
  else 'f'

/-- ECMA-262 `QuoteJSONString`, per character: `"` and `\` get a backslash,
backspace / tab / newline / form feed / carriage return get their two-character
escapes, all other code points below U+0020 get `\u00XX`, everything else is
emitted verbatim.  (Lean `Char` has no lone surrogates, so that clause of the
standard is vacuous here.) -/
def escJsonChar (c : Char) : List Char :=
  if c = '"' then ['\\', '"']
  else if c = '\\' then ['\\', '\\']
  else if c = '\x08' then ['\\', 'b']
  else if c = '\t' then ['\\', 't']
  else if c = '\n' then ['\\', 'n']
  else if c = '\x0c' then ['\\', 'f']
  else if c = '\r' then ['\\', 'r']
  else if c.toNat < 0x20 then
    ['\\', 'u', '0', '0', hexDigitChar (c.toNat / 16), hexDigitChar (c.toNat % 16)]
  else [c]

/-- A JSON string literal: quote, escaped characters, quote. -/
def quoteJson (s : String) : List Char :=
  '"' :: s.data.flatMap escJsonChar ++ ['"']

/-- Literal layout pieces of `JSON.stringify(data, null, 2)` for this record
shape.  Opening of one object up to the opening quote of the `fileName`
value. -/
def litRecordOpen : List Char := "  \x7b\n    \"fileName\": \"".data

/-- Between the closing quote of the `fileName` value and the opening quote of
the `content` value. -/
def litRecordMid : List Char := ",\n    \"content\": \"".data

/-- After the closing quote of the `content` value: newline, indent, `\x7d`. -/
def litRecordClose : List Char := "\n  \x7d".data

/-- Separator between two array elements. -/
def litSep : List Char := ",\n".data

/-- Closing of a non-empty array: newline then `]`. -/
def litEnd : List Char := "\n]".data

/-- One serialized record, as laid out by `JSON.stringify(data, null, 2)`. -/
def serRecord (r : FileRecord) : List Char :=
  litRecordOpen ++ r.fileName.data.flatMap escJsonChar ++ ['"']
    ++ litRecordMid ++ r.content.data.flatMap escJsonChar ++ ['"']
    ++ litRecordClose

/-- `JSON.stringify(data, null, 2)` for `data` a list of
`\x7b fileName, content \x7d` records: `[]` when empty, otherwise the records
on indented lines joined by `",\n"` inside `[` … `]`. -/
def jsonStringifyRecords (filesData : List FileRecord) : String :=
  match filesData with
  | [] => "[]"
  | _ => ⟨"[\n".data ++ List.intercalate litSep (filesData.map serRecord) ++ litEnd⟩

/-! ## Format dispatch (`getExportOutput`, lines 109–120) -/

/-- `getExportOutput`: switch on `selectedExportFormat` with a silent `""`
default. -/
def getExportOutput (selectedExportFormat : String) (data : List FileRecord) : String :=
  match selectedExportFormat with
  | "json" => jsonStringifyRecords data
  | "xml" => convertToXML data
  | "markdown" => convertToMarkdown data
  | _ => ""

/-! ## Clipboard writer (`autoCopyToClipboard`, lines 64–91)

The platform is modelled by an environment of oracles: availability of the
modern clipboard API, whether `navigator.clipboard.writeText` rejects, and
whether each step of the fallback throws.  `document.execCommand('copy')`
either throws or returns a success flag; the source ignores the flag.
`Except Unit` models a thrown/rejected JavaScript error; the second component
of the results below records whether the temporary `<textarea>` of the
fallback is still attached to the document when the function returns. -/
instance {ε α : Type} [DecidableEq ε] [DecidableEq α] : DecidableEq (Except ε α) := fun a b =>
  match a, b with
  | .error x, .error y => decidable_of_iff (x = y) (by simp)
  | .ok x, .ok y => decidable_of_iff (x = y) (by simp)
  | .error _, .ok _ => isFalse (by simp)
  | .ok _, .error _ => isFalse (by simp)

structure ClipEnv where
  clipboardApiAvailable : Bool
  writeTextRejects : Bool
  appendChildThrows : Bool
  selectThrows : Bool
  execCommandResult : Except Unit Bool
deriving DecidableEq, Repr

/-- The body of the fallback `try` block (lines 76–87): create the textarea,
append it, select, `execCommand('copy')`, remove it, `return true`.  Returns
the outcome of the block (`.error` if some step threw) together with whether
the textarea is still in the document afterwards.  `removeChild` runs only on
the path where no earlier step threw. -/
def fallbackAttempt (env : ClipEnv) : Except Unit Bool × Bool :=
  if env.appendChildThrows then (.error (), false)
  else if env.selectThrows then (.error (), true)
  else
    match env.execCommandResult with
    | .error e => (.error e, true)
    | .ok _ => (.ok true, false)

/-- `autoCopyToClipboard`: try `navigator.clipboard.writeText` when available,
falling back to the textarea + `execCommand('copy')` strategy; the fallback's
`catch` turns any thrown error into `return false`.  First component: the
settled promise (`.ok b` = resolves with `b`, `.error` = rejects); second:
whether the temporary textarea is left in the document. -/
def autoCopyToClipboard (env : ClipEnv) (text : String) : Except Unit Bool × Bool :=
  if env.clipboardApiAvailable then
    if env.writeTextRejects then
      match fallbackAttempt env with
      | (.ok b, d) => (.ok b, d)
      | (.error _, d) => (.ok false, d)
    else (.ok true, false)
  else
    match fallbackAttempt env with
    | (.ok b, d) => (.ok b, d)
    | (.error _, d) => (.ok false, d)

/-! ## Batch extraction and application state (`readAndSetFiles`, lines 126–148) -/

/-- A file handle together with the outcome of its asynchronous
`readFileAsText`: the promise resolves with the decoded text or rejects with
an error. -/
structure FileInput where
  name : String
  readResult : Except String String
deriving DecidableEq, Repr

/-- `readFileAsText` wrapped per file inside `fileArray.map(async file => …)`:
produce a `\x7b fileName, content \x7d` record, or propagate the rejection. -/
def readFileAsText (file : FileInput) : Except String String :=
  file.readResult

/-- `Promise.all` over the mapped reads (lines 128–133): resolves with the
records in input order when every read resolves, rejects when any read
rejects. -/
def readBatch : List FileInput → Except String (List FileRecord)
  | [] => .ok []
  | file :: rest =>
    match readFileAsText file with
    | .error e => .error e
    | .ok content =>
      match readBatch rest with
      | .error e => .error e
      | .ok records => .ok (⟨file.name, content⟩ :: records)

/-- The component state touched by `readAndSetFiles`: the stored file list,
the selected export format, and the transient copy message. -/
structure AppState where
  filesData : List FileRecord
  selectedExportFormat : String
  copyMessage : String
deriving DecidableEq, Repr

/-- `readAndSetFiles`: await the joined reads; on rejection the `catch`
logs `console.error('Error reading files:', error)` and changes nothing.  On
success the accumulated `newData = [...filesData, ...results]` is built and
discarded, `setFilesData(results)` stores the new batch, and the export of
`results` is auto-copied, setting `copyMessage`.  Result: the new state and
the diagnostic-channel output (`some` = `console.error` fired). -/
def readAndSetFiles (st : AppState) (env : ClipEnv) (fileArray : List FileInput) :
    AppState × Option String :=
  match readBatch fileArray with
  | .error e => (st, some ("Error reading files: " ++ e))
  | .ok results =>
    let newData := st.filesData ++ results
    let st1 : AppState := { st with filesData := results }
    let exported := getExportOutput st.selectedExportFormat results
    match (autoCopyToClipboard env exported).1 with
    | .error _ => (st1, some "Error reading files: (rejected copy)")
    | .ok success =>
      ({ st1 with
          copyMessage := if success then "Copied to clipboard!" else "Clipboard copy failed." },
        none)

/-! ## Claims C8 and C9 -/

/-- C8: for the empty record sequence, the json export is `[]`, the xml export
is exactly `<files>` newline `</files>`, and the markdown export is the empty
string. -/
theorem empty_exports :
    getExportOutput "json" [] = "[]" ∧
    getExportOutput "xml" [] = "<files>\n</files>" ∧
    getExportOutput "markdown" [] = "" := by
  refine ⟨rfl, ?_, ?_⟩ <;> decide

/-- C9: any format tag other than `json`, `xml`, `markdown` yields the empty
string (the switch's silent default), for every record sequence. -/
theorem unknown_format_empty (format : String) (data : List FileRecord)
    (h1 : format ≠ "json") (h2 : format ≠ "xml") (h3 : format ≠ "markdown") :
    getExportOutput format data = "" := by
  unfold getExportOutput
  split
  · exact absurd rfl h1
  · exact absurd rfl h2
  · exact absurd rfl h3
  · rfl

/-- Witness for C9: the unknown tag `yaml` produces the empty string. -/
theorem unknown_format_empty_app :
    getExportOutput "yaml" [] = "" :=
  unknown_format_empty "yaml" []
    (by decide) (by decide) (by decide)

/-! ## Claims C4 and C10: batch extraction and state replacement -/

/-- If some file in the batch rejects, the joined read rejects. -/
theorem readBatch_error : ∀ files : List FileInput,
    (∃ f ∈ files, ∃ e, f.readResult = Except.error e) →
    ∃ e', readBatch files = .error e'
  | [], h => absurd h (by simp)
  | file :: rest, h => by
    rcases hr : file.readResult with e | c
    · exact ⟨e, by simp [readBatch, readFileAsText, hr]⟩
    · have hrest : ∃ f ∈ rest, ∃ e, f.readResult = Except.error e := by
        rcases h with ⟨f, hf, e, he⟩
        rcases List.mem_cons.mp hf with rfl | hf'
        · rw [hr] at he; cases he
        · exact ⟨f, hf', e, he⟩
      obtain ⟨e', he'⟩ := readBatch_error rest hrest
      exact ⟨e', by simp [readBatch, readFileAsText, hr, he']⟩

/-- C4: extraction is all-or-nothing.  If any single read in the batch fails,
the state (hence the stored file list and the displayed export) is unchanged
and the failure goes only to the diagnostic channel. -/
theorem batch_failure_leaves_state (st : AppState) (env : ClipEnv)
    (files : List FileInput)
    (h : ∃ f ∈ files, ∃ e, f.readResult = Except.error e) :
    (readAndSetFiles st env files).1 = st ∧
    getExportOutput (readAndSetFiles st env files).1.selectedExportFormat
        (readAndSetFiles st env files).1.filesData
      = getExportOutput st.selectedExportFormat st.filesData ∧
    ∃ d, (readAndSetFiles st env files).2 = some d := by
  obtain ⟨e', he'⟩ := readBatch_error files h
  refine ⟨?_, ?_, ?_⟩ <;> simp [readAndSetFiles, he']

/-- Witness for C4: one rejecting file leaves a concrete state untouched. -/
theorem batch_failure_leaves_state_app :
    (readAndSetFiles ⟨[⟨"old", "o"⟩], "json", ""⟩
        ⟨true, false, false, false, .ok true⟩
        [⟨"f.txt", .error "boom"⟩]).1 = ⟨[⟨"old", "o"⟩], "json", ""⟩ :=
  (batch_failure_leaves_state _ _ _
    ⟨⟨"f.txt", .error "boom"⟩, by simp, "boom", rfl⟩).1

/-- C10: a successful batch replaces the stored file list with exactly the
records of that batch; it never appends to the previous records (even though
the accumulated `newData` concatenation is computed and discarded). -/
theorem batch_replaces_state (st : AppState) (env : ClipEnv)
    (files : List FileInput) (results : List FileRecord)
    (h : readBatch files = .ok results) :
    (readAndSetFiles st env files).1.filesData = results ∧
    (st.filesData ≠ [] →
      (readAndSetFiles st env files).1.filesData ≠ st.filesData ++ results) := by
  have hfd : (readAndSetFiles st env files).1.filesData = results := by
    rcases hac : (autoCopyToClipboard env
        (getExportOutput st.selectedExportFormat results)).1 with u | b <;>
      simp [readAndSetFiles, h, hac]
  refine ⟨hfd, fun hne heq => ?_⟩
  rw [hfd] at heq
  have h2 := congrArg List.length heq
  simp at h2
  exact hne h2

/-- Witness for C10: a new batch replaces a non-empty previous batch. -/
theorem batch_replaces_state_app :
    (readAndSetFiles ⟨[⟨"old", "o"⟩], "markdown", ""⟩
        ⟨true, false, false, false, .ok true⟩
        [⟨"new.txt", .ok "n"⟩]).1.filesData = [⟨"new.txt", "n"⟩] :=
  (batch_replaces_state _ _ _ [⟨"new.txt", "n"⟩] (by decide)).1

/-! ## Claims C2 and C3: clipboard writer -/

/-- Modelled from the spec: "strategy 1 fails" — the direct clipboard-write
capability is unavailable or its promise rejects. -/
def specPrimaryStrategyFails (env : ClipEnv) : Prop :=
  env.clipboardApiAvailable = false ∨ env.writeTextRejects = true

/-- Modelled from the spec: "strategy 2 fails or throws" — some step of the
fallback throws, or the legacy copy command completes but reports failure
(returns a flag other than success). -/
def specFallbackStrategyFails (env : ClipEnv) : Prop :=
  env.appendChildThrows = true ∨ env.selectThrows = true ∨
    env.execCommandResult ≠ .ok true

/-- C2 counterexample: in an environment where the primary strategy is
unavailable and `execCommand('copy')` completes but reports failure by
returning `false`, both strategies fail, yet the code resolves to `true`
(the return value of `execCommand` is ignored) — so "resolves to `false`
exactly when both strategies fail or throw" is false here. -/
theorem clipboard_flag_claim_false_at :
    specPrimaryStrategyFails ⟨false, false, false, false, .ok false⟩ ∧
    specFallbackStrategyFails ⟨false, false, false, false, .ok false⟩ ∧
    (autoCopyToClipboard ⟨false, false, false, false, .ok false⟩ "").1 = .ok true := by
  refine ⟨Or.inl rfl, Or.inr (Or.inr (by simp)), rfl⟩

/-- C2 (amended): for every environment and input string the promise settles
with a boolean (it never rejects), and it resolves to `false` exactly when the
primary strategy is unavailable or rejects and the fallback `try` block
throws; when `execCommand` completes normally the fallback resolves to `true`
even if the command reported failure by returning `false`. -/
theorem clipboard_flag_characterization (env : ClipEnv) (text : String) :
    (∃ b, (autoCopyToClipboard env text).1 = .ok b) ∧
    ((autoCopyToClipboard env text).1 = .ok false ↔
      ((env.clipboardApiAvailable = false ∨ env.writeTextRejects = true) ∧
        (env.appendChildThrows = true ∨ env.selectThrows = true ∨
          ∃ u, env.execCommandResult = .error u))) := by
  rcases env with ⟨avail, rej, app, sel, exec⟩
  cases avail <;> cases rej <;> cases app <;> cases sel <;>
    rcases exec with u | b <;>
    first
      | (cases b <;> simp [autoCopyToClipboard, fallbackAttempt])
      | simp [autoCopyToClipboard, fallbackAttempt]

/-- C3 (code bug): with the primary strategy unavailable and
`execCommand('copy')` throwing, the fallback's `catch` returns `false`
without running `removeChild` (there is no `finally` in the source): the
temporary textarea is left attached to the document. -/
theorem clipboard_fallback_leaves_element :
    (autoCopyToClipboard ⟨false, false, false, false, .error ()⟩ "").1 = .ok false ∧
    (autoCopyToClipboard ⟨false, false, false, false, .error ()⟩ "").2 = true := by
  exact ⟨rfl, rfl⟩

/-! ## Claim C5: result order is input order, for every completion order

Lines 128–133 fan out one promise per file and join them with `Promise.all`.
`Promise.all` keeps one result slot per input index: each promise, upon
completing, writes its value into the slot of its own index, and the joined
promise resolves with the slot array in index order once every slot is
filled.  The completion order is modelled explicitly as the list of input
indices in the order the underlying reads finish. -/

/-- A pending asynchronous read within one successful batch: the file's name
and the text its `readFileAsText` promise will eventually deliver. -/
structure PendingRead where
  name : String
  content : String
deriving DecidableEq, Repr

/-- One read completing: the promise of index `i` writes its
`\x7b fileName, content \x7d` record into slot `i`. -/
def readStep (tasks : List PendingRead) (slots : List (Option FileRecord)) (i : Nat) :
    List (Option FileRecord) :=
  match tasks[i]? with
  | some t => slots.set i (some ⟨t.name, t.content⟩)
  | none => slots

/-- Run all completions in the given order over initially empty slots. -/
def runReads (tasks : List PendingRead) (completionOrder : List Nat) :
    List (Option FileRecord) :=
  completionOrder.foldl (readStep tasks) (List.replicate tasks.length none)

/-- The fan-in: `Promise.all` resolves with the slots in index order once
every slot is filled, and cannot resolve while a slot is empty. -/
def joinAll : List (Option FileRecord) → Option (List FileRecord)
  | [] => some []
  | none :: _ => none
  | some r :: rest => (joinAll rest).map (r :: ·)

/-- The whole fan-out / fan-in of lines 128–133 under an explicit completion
order. -/
def extractConcurrent (tasks : List PendingRead) (completionOrder : List Nat) :
    Option (List FileRecord) :=
  joinAll (runReads tasks completionOrder)

/-- Folding completions never changes the number of slots. -/
theorem readStep_foldl_length (tasks : List PendingRead) :
    ∀ (order : List Nat) (slots : List (Option FileRecord)),
      (order.foldl (readStep tasks) slots).length = slots.length
  | [], _ => rfl
  | i :: rest, slots => by
    rw [List.foldl_cons, readStep_foldl_length tasks rest]
    unfold readStep
    cases tasks[i]? <;> simp

/-- Slots whose index never completes are untouched. -/
theorem readStep_foldl_notmem (tasks : List PendingRead) :
    ∀ (order : List Nat) (slots : List (Option FileRecord)) (j : Nat),
      j ∉ order → (order.foldl (readStep tasks) slots)[j]? = slots[j]?
  | [], _, _, _ => rfl
  | i :: rest, slots, j, hj => by
    rw [List.foldl_cons,
      readStep_foldl_notmem tasks rest _ j (fun h => hj (List.mem_cons_of_mem i h))]
    unfold readStep
    cases tasks[i]? with
    | none => rfl
    | some t =>
      exact List.getElem?_set_ne
        (fun h => hj (by rw [← h]; exact List.mem_cons_self i rest))

/-- A slot whose index completes holds its own record afterwards, regardless
of where in the order it completed. -/
theorem readStep_foldl_mem (tasks : List PendingRead) :
    ∀ (order : List Nat) (slots : List (Option FileRecord)) (j : Nat),
      j ∈ order → j < tasks.length → slots.length = tasks.length →
      (order.foldl (readStep tasks) slots)[j]?
        = (tasks[j]?).map (fun t => some ⟨t.name, t.content⟩)
  | [], _, _, hj, _, _ => absurd hj (List.not_mem_nil _)
  | i :: rest, slots, j, hj, hjt, hlen => by
    rw [List.foldl_cons]
    by_cases hr : j ∈ rest
    · refine readStep_foldl_mem tasks rest _ j hr hjt ?_
      unfold readStep
      cases tasks[i]? <;> simp [hlen]
    · have hij : j = i := by
        rcases List.mem_cons.mp hj with h | h
        · exact h
        · exact absurd h hr
      subst hij
      rw [readStep_foldl_notmem tasks rest _ j hr]
      unfold readStep
      rcases ht : tasks[j]? with _ | t
      · exact absurd ht (by simp [List.getElem?_eq_some_iff] at *; omega)
      · simp [List.getElem?_set_self (by rw [hlen]; exact hjt)]

/-- Joining fully filled slots strips the `some`s. -/
theorem joinAll_map_some : ∀ l : List FileRecord, joinAll (l.map some) = some l
  | [] => rfl
  | a :: l => by
    simp [joinAll, joinAll_map_some l]

/-- C5: for every batch and every completion order (any permutation of the
input indices), the joined result lists the records in input order — a slow
first read and a fast second read still yield `[first, second]`. -/
theorem concurrent_extraction_order (tasks : List PendingRead)
    (completionOrder : List Nat)
    (h : completionOrder.Perm (List.range tasks.length)) :
    extractConcurrent tasks completionOrder
      = some (tasks.map fun t => ⟨t.name, t.content⟩) := by
  have hfill : runReads tasks completionOrder
      = tasks.map (fun t => some (⟨t.name, t.content⟩ : FileRecord)) := by
    apply List.ext_getElem?
    intro j
    by_cases hjt : j < tasks.length
    · have hmem : j ∈ completionOrder := h.mem_iff.mpr (List.mem_range.mpr hjt)
      rw [runReads, readStep_foldl_mem tasks _ _ j hmem hjt (by simp)]
      simp [List.getElem?_map]
    · have hlen : (runReads tasks completionOrder).length = tasks.length := by
        rw [runReads, readStep_foldl_length]; simp
      have h1 : (runReads tasks completionOrder)[j]? = none :=
        List.getElem?_eq_none (by omega)
      have h2 : (tasks.map (fun t => some (⟨t.name, t.content⟩ : FileRecord)))[j]? = none :=
        List.getElem?_eq_none (by simp; omega)
      rw [h1, h2]
  rw [extractConcurrent, hfill]
  have h3 := joinAll_map_some (tasks.map fun t => (⟨t.name, t.content⟩ : FileRecord))
  simpa [List.map_map, Function.comp] using h3

/-- Witness for C5: two files whose reads complete out of order (index 1
first, index 0 last) still produce `[first, second]`. -/
theorem concurrent_extraction_order_app :
    extractConcurrent [⟨"slow", "first"⟩, ⟨"fast", "second"⟩] [1, 0]
      = some [⟨"slow", "first"⟩, ⟨"fast", "second"⟩] :=
  concurrent_extraction_order _ _ (by decide)


/-! ## Claim C7: markdown layout -/

/-- One markdown block: level-2 heading with the file name, an untagged
fence, the raw content, the closing fence. -/
def mdBlock (r : FileRecord) : List Char :=
  "## ".data ++ r.fileName.data ++ "\n```\n".data ++ r.content.data ++ "\n```".data

/-- `intercalate` of a single piece. -/
theorem intercalate_singleton (sep x : List Char) :
    List.intercalate sep [x] = x := by
  simp [List.intercalate]

/-- Unfolding `intercalate` one step on two or more pieces. -/
theorem intercalate_cons_cons (sep a b : List Char) (l : List (List Char)) :
    List.intercalate sep (a :: b :: l) = a ++ sep ++ List.intercalate sep (b :: l) := by
  simp [List.intercalate, List.intersperse_cons_cons, List.append_assoc]

/-- A block spelled out from its head characters. -/
theorem mdBlock_eq (r : FileRecord) :
    mdBlock r = '#' :: '#' :: ' ' ::
      (r.fileName.data ++ ("\n```\n".data ++ (r.content.data ++ "\n```".data))) := by
  show "## ".data ++ _ ++ _ ++ _ ++ _ = _
  rw [show "## ".data = ['#', '#', ' '] from rfl]
  simp [List.append_assoc]

/-- The markdown fold accumulates one block plus a blank-line separator per
record. -/
theorem md_foldl_data (rs : List FileRecord) :
    ∀ init : String,
    (rs.foldl
      (fun md file =>
        md ++ "## " ++ file.fileName ++ "\n```\n" ++ file.content ++ "\n```\n\n")
      init).data
      = init.data ++ (rs.map (fun r => mdBlock r ++ "\n\n".data)).flatten := by
  induction rs with
  | nil => intro init; simp
  | cons r rs ih =>
    intro init
    rw [List.foldl_cons, ih]
    simp [mdBlock, List.append_assoc]

/-- Concatenating separator-terminated blocks is the separator-joined blocks
plus one trailing separator, for a non-empty block list. -/
theorem flatten_sep_blocks (sep : List Char) :
    ∀ bs : List (List Char), bs ≠ [] →
    (bs.map (· ++ sep)).flatten = List.intercalate sep bs ++ sep
  | [], h => absurd rfl h
  | [b], _ => by simp [intercalate_singleton]
  | b :: b' :: bs, _ => by
    rw [List.map_cons, List.flatten_cons, flatten_sep_blocks sep (b' :: bs) (by simp),
      intercalate_cons_cons]
    simp [List.append_assoc]

/-- Every joined block list headed by a record starts with `#`. -/
theorem intercalate_mdBlock_head (r : FileRecord) (rs : List FileRecord) :
    ∃ y, List.intercalate "\n\n".data ((r :: rs).map mdBlock) = '#' :: y := by
  cases rs with
  | nil =>
    have h : List.intercalate "\n\n".data ([r].map mdBlock)
        = '#' :: ('#' :: ' ' ::
            (r.fileName.data ++ ("\n```\n".data ++ (r.content.data ++ "\n```".data)))) := by
      rw [List.map_cons, List.map_nil, intercalate_singleton, mdBlock_eq]
    exact ⟨_, h⟩
  | cons r' rs' =>
    have h : List.intercalate "\n\n".data ((r :: r' :: rs').map mdBlock)
        = '#' :: ('#' :: ' ' ::
            (r.fileName.data ++ ("\n```\n".data ++ (r.content.data ++ "\n```".data)))
          ++ "\n\n".data ++ List.intercalate "\n\n".data ((r' :: rs').map mdBlock)) := by
      rw [List.map_cons, List.map_cons, intercalate_cons_cons, ← List.map_cons, mdBlock_eq]
      simp only [List.cons_append, List.append_assoc]
    exact ⟨_, h⟩

/-- The joined blocks end with the closing fence. -/
theorem intercalate_mdBlock_fence (r : FileRecord) :
    ∀ rs : List FileRecord,
    ∃ x, List.intercalate "\n\n".data ((r :: rs).map mdBlock)
      = x ++ "\n```".data
  | [] =>
    ⟨"## ".data ++ r.fileName.data ++ "\n```\n".data ++ r.content.data, by
      rw [List.map_cons, List.map_nil, intercalate_singleton, mdBlock]⟩
  | r' :: rs' => by
    obtain ⟨x, hx⟩ := intercalate_mdBlock_fence r' rs'
    refine ⟨mdBlock r ++ "\n\n".data ++ x, ?_⟩
    rw [List.map_cons, List.map_cons, intercalate_cons_cons, ← List.map_cons, hx]
    simp [List.append_assoc]

/-- Trimming after a closing fence removes exactly the final blank
separator. -/
theorem trimR_after_fence (x : List Char) :
    (((x ++ "\n```".data) ++ "\n\n".data).reverse.dropWhile isJsWhitespace).reverse
      = x ++ "\n```".data := by
  have h1 : ((x ++ "\n```".data) ++ "\n\n".data).reverse
      = '\n' :: '\n' :: '`' :: '`' :: '`' :: '\n' :: x.reverse := by
    rw [show "\n\n".data = ['\n', '\n'] from rfl, show "\n```".data = ['\n', '`', '`', '`'] from rfl]
    simp
  rw [h1]
  have hnl : isJsWhitespace '\n' = true := by decide
  have hbt : isJsWhitespace '`' = false := by decide
  rw [List.dropWhile_cons, hnl]
  rw [List.dropWhile_cons, hnl]
  rw [if_pos rfl, if_pos rfl, List.dropWhile_cons, hbt, if_neg (by simp)]
  rw [show ('`' :: '`' :: '`' :: '\n' :: x.reverse) = ['\n', '`', '`', '`'].reverse ++ x.reverse
      from by simp]
  rw [← List.reverse_append, List.reverse_reverse,
    show (['\n', '`', '`', '`'] : List Char) = "\n```".data from rfl]

/-- C7: for every record sequence the markdown export is exactly the blocks
(heading line, fence, verbatim content, closing fence) joined by one blank
line — the trailing accumulated separator is trimmed from the final result
and nothing else — and the single record `a.txt` / `hi` yields exactly the
four lines with no trailing blank line. -/
theorem markdown_blocks :
    (∀ rs : List FileRecord,
      (convertToMarkdown rs).data = List.intercalate "\n\n".data (rs.map mdBlock)) ∧
    convertToMarkdown [⟨"a.txt", "hi"⟩] = "## a.txt\n```\nhi\n```" := by
  constructor
  · intro rs
    cases rs with
    | nil => rfl
    | cons r rs' =>
      obtain ⟨y, hy⟩ := intercalate_mdBlock_head r rs'
      obtain ⟨x, hx⟩ := intercalate_mdBlock_fence r rs'
      have hdata : ((r :: rs').foldl
          (fun md file =>
            md ++ "## " ++ file.fileName ++ "\n```\n" ++ file.content ++ "\n```\n\n")
          "").data
          = List.intercalate "\n\n".data ((r :: rs').map mdBlock) ++ "\n\n".data := by
        rw [md_foldl_data]
        have hfl := flatten_sep_blocks "\n\n".data ((r :: rs').map mdBlock) (by simp)
        rw [List.map_map] at hfl
        simpa [Function.comp] using hfl
      show (jsTrim _).data = _
      unfold jsTrim
      rw [hdata]
      have hTrimL : List.dropWhile isJsWhitespace
          (List.intercalate "\n\n".data ((r :: rs').map mdBlock) ++ "\n\n".data)
          = List.intercalate "\n\n".data ((r :: rs').map mdBlock) ++ "\n\n".data := by
        rw [hy]
        have hh : isJsWhitespace '#' = false := by decide
        rw [List.cons_append, List.dropWhile_cons, hh, if_neg (by simp)]
      show ((List.dropWhile isJsWhitespace _).reverse.dropWhile isJsWhitespace).reverse = _
      rw [hTrimL, hx]
      exact trimR_after_fence x
  · decide

/-! ## Claim C1: XML escaping of the element body

`escapeXmlContent` is the five chained `.replace` calls.  Because no
replacement string contains a character that a later `.replace` call targets,
the chain acts character-by-character; `xmlEsc0` is that per-character
action.  `unescapeXml` below reverses the five substitutions: the five
inverse replacements applied in the reverse order of the escaping. -/

/-- The per-character action of the whole escaping chain. -/
def xmlEsc0 (c : Char) : List Char :=
  if c = '&' then "&amp;".data
  else if c = '<' then "&lt;".data
  else if c = '>' then "&gt;".data
  else if c = '"' then "&quot;".data
  else if c = '\x27' then "&apos;".data
  else [c]

/-- The five entity substitutions of the converter. -/
def xmlEntities : List (List Char) :=
  ["&amp;".data, "&lt;".data, "&gt;".data, "&quot;".data, "&apos;".data]

theorem dataAmp : "&amp;".data = ['&', 'a', 'm', 'p', ';'] := rfl

theorem dataLt : "&lt;".data = ['&', 'l', 't', ';'] := rfl

theorem dataGt : "&gt;".data = ['&', 'g', 't', ';'] := rfl

theorem dataQuot : "&quot;".data = ['&', 'q', 'u', 'o', 't', ';'] := rfl

theorem dataApos : "&apos;".data = ['&', 'a', 'p', 'o', 's', ';'] := rfl

/-- The chained single-character replaces act character-wise. -/
theorem escapeXmlContent_data (s : String) :
    (escapeXmlContent s).data = s.data.flatMap xmlEsc0 := by
  show replaceChar '\x27' "&apos;".data
      (replaceChar '"' "&quot;".data
        (replaceChar '>' "&gt;".data
          (replaceChar '<' "&lt;".data
            (replaceChar '&' "&amp;".data s.data)))) = _
  unfold replaceChar
  rw [List.flatMap_assoc, List.flatMap_assoc, List.flatMap_assoc, List.flatMap_assoc]
  congr 1
  funext c
  by_cases h1 : c = '&'
  · subst h1; rfl
  by_cases h2 : c = '<'
  · subst h2; rfl
  by_cases h3 : c = '>'
  · subst h3; rfl
  by_cases h4 : c = '"'
  · subst h4; rfl
  by_cases h5 : c = '\x27'
  · subst h5; rfl
  simp [xmlEsc0, h1, h2, h3, h4, h5]

/-- Model of JavaScript `s.replace(/pat/g, rep)` for a multi-character literal
pattern: scan left to right; at a position where `pat` matches, emit `rep` and
continue after the match (the replacement is not rescanned); otherwise emit
the character and continue. -/
def replaceAllStr (pat rep : List Char) (s : List Char) : List Char :=
  match s with
  | [] => []
  | c :: rest =>
    if h : pat ≠ [] ∧ pat.isPrefixOf (c :: rest) then
      rep ++ replaceAllStr pat rep (List.drop pat.length (c :: rest))
    else
      c :: replaceAllStr pat rep rest
termination_by s.length
decreasing_by
  · have hlen : 1 ≤ pat.length := by
      cases hp : pat
      · exact absurd hp h.1
      · simp
    simp only [List.length_drop, List.length_cons]
    omega
  · simp

/-- Reversing the five substitutions on a string: the five inverse
replacements, applied in the reverse order of the escaping (`&apos;` first,
`&amp;` last). -/
def unescapeXml (s : String) : String :=
  ⟨replaceAllStr "&amp;".data "&".data
    (replaceAllStr "&lt;".data "<".data
      (replaceAllStr "&gt;".data ">".data
        (replaceAllStr "&quot;".data "\"".data
          (replaceAllStr "&apos;".data "\x27".data s.data))))⟩

theorem replaceAllStr_nil (pat rep : List Char) : replaceAllStr pat rep [] = [] := by
  unfold replaceAllStr
  rfl

/-- Unfolding equation for a match at the current position. -/
theorem replaceAllStr_cons_pos (pat rep : List Char) (c : Char) (rest : List Char)
    (h : pat ≠ [] ∧ pat.isPrefixOf (c :: rest)) :
    replaceAllStr pat rep (c :: rest)
      = rep ++ replaceAllStr pat rep (List.drop pat.length (c :: rest)) := by
  conv_lhs => unfold replaceAllStr
  rw [dif_pos h]

/-- Unfolding equation when the pattern does not match here. -/
theorem replaceAllStr_cons_neg (pat rep : List Char) (c : Char) (rest : List Char)
    (h : ¬(pat ≠ [] ∧ pat.isPrefixOf (c :: rest))) :
    replaceAllStr pat rep (c :: rest) = c :: replaceAllStr pat rep rest := by
  conv_lhs => unfold replaceAllStr
  rw [dif_neg h]

/-- A match at the head is consumed whole. -/
theorem replaceAllStr_eat (pc : Char) (pt rep t : List Char) :
    replaceAllStr (pc :: pt) rep ((pc :: pt) ++ t)
      = rep ++ replaceAllStr (pc :: pt) rep t := by
  have hpre : (pc :: pt).isPrefixOf (pc :: (pt ++ t)) := by
    rw [← List.cons_append, List.isPrefixOf_iff_prefix]
    exact List.prefix_append _ _
  rw [List.cons_append, replaceAllStr_cons_pos _ _ _ _ ⟨List.cons_ne_nil pc pt, hpre⟩,
    ← List.cons_append, List.drop_left]

/-- A block in which the pattern matches at no position passes through
unchanged. -/
theorem replaceAllStr_skip (pat rep : List Char) :
    ∀ (b t : List Char),
      (∀ j, j < b.length → ¬ pat.isPrefixOf (b.drop j ++ t)) →
      replaceAllStr pat rep (b ++ t) = b ++ replaceAllStr pat rep t
  | [], _, _ => by simp
  | c :: b', t, h => by
    have hng : ¬((pat ≠ []) ∧ pat.isPrefixOf (c :: (b' ++ t))) := by
      intro hcon
      refine h 0 (by simp) ?_
      rw [List.drop_zero, List.cons_append]
      exact hcon.2
    have hrest : ∀ j, j < b'.length → ¬ pat.isPrefixOf (b'.drop j ++ t) := by
      intro j hj
      have hshift := h (j + 1) (by simpa using Nat.succ_lt_succ hj)
      simpa using hshift
    rw [List.cons_append, replaceAllStr_cons_neg _ _ _ _ hng,
      replaceAllStr_skip pat rep b' t hrest]
    rfl

/-- Prefixes agree with the larger list position-wise. -/
theorem prefix_getElem? {l₁ l₂ : List Char} (h : l₁ <+: l₂) {i : Nat}
    (hi : i < l₁.length) : l₂[i]? = l₁[i]? := by
  rw [List.prefix_iff_eq_take.mp h, List.getElem?_take_of_lt hi]

/-- Master lemma: one inverse replacement, applied to a string that is a
concatenation of per-character blocks, replaces exactly the blocks equal to
the pattern — provided the pattern's first character occurs in no block tail
and every block other than the pattern differs from it inside the block. -/
theorem replaceAllStr_flatMap (pc : Char) (pt rep : List Char)
    (g g' : Char → List Char)
    (hg' : ∀ c, g' c = if g c = pc :: pt then rep else g c)
    (htail : ∀ c, pc ∉ (g c).drop 1)
    (hmis : ∀ c, g c ≠ pc :: pt →
      ∃ i, i < (g c).length ∧ i < pt.length + 1 ∧ (g c)[i]? ≠ (pc :: pt)[i]?) :
    ∀ s : List Char, replaceAllStr (pc :: pt) rep (s.flatMap g) = s.flatMap g' := by
  intro s
  induction s with
  | nil => exact replaceAllStr_nil _ _
  | cons c s ih =>
    rw [List.flatMap_cons, List.flatMap_cons]
    by_cases hc : g c = pc :: pt
    · rw [hc, replaceAllStr_eat, ih, hg' c, if_pos hc]
    · rw [replaceAllStr_skip _ _ _ _ ?_, ih, hg' c, if_neg hc]
      intro j hj hpre
      rw [List.isPrefixOf_iff_prefix] at hpre
      rcases Nat.eq_zero_or_pos j with rfl | hjpos
      · obtain ⟨i, hi1, hi2, hi3⟩ := hmis c hc
        apply hi3
        have h1 : ((g c).drop 0 ++ s.flatMap g)[i]? = (g c)[i]? := by
          rw [List.drop_zero, List.getElem?_append_left hi1]
        have h2 := prefix_getElem? hpre (by simpa using hi2)
        rw [h1] at h2
        exact h2
      · have hne : (g c).length - j ≠ 0 := by omega
        have h0 : ((g c).drop j ++ s.flatMap g)[0]? = some pc := by
          have := prefix_getElem? hpre (i := 0) (by simp)
          simpa using this
        have h0' : ((g c).drop j)[0]? = some pc := by
          rw [List.getElem?_append_left (by simp; omega)] at h0
          exact h0
        rw [List.getElem?_drop] at h0'
        have hmem : pc ∈ (g c).drop 1 := by
          have : ((g c).drop 1)[j - 1]? = some pc := by
            rw [List.getElem?_drop]
            rw [show 1 + (j - 1) = j + 0 by omega]
            exact h0'
          exact List.getElem?_mem this
        exact htail c hmem

/-! Per-character views of the intermediate strings while undoing the five
substitutions one at a time (`xmlEsc1` after undoing `&apos;`, …, `xmlEsc5`
after undoing `&amp;`). -/

/-- Blocks after undoing the `&apos;` substitution. -/
def xmlEsc1 (c : Char) : List Char :=
  if xmlEsc0 c = "&apos;".data then "\x27".data else xmlEsc0 c

/-- Blocks after also undoing the `&quot;` substitution. -/
def xmlEsc2 (c : Char) : List Char :=
  if xmlEsc1 c = "&quot;".data then "\"".data else xmlEsc1 c

/-- Blocks after also undoing the `&gt;` substitution. -/
def xmlEsc3 (c : Char) : List Char :=
  if xmlEsc2 c = "&gt;".data then ">".data else xmlEsc2 c

/-- Blocks after also undoing the `&lt;` substitution. -/
def xmlEsc4 (c : Char) : List Char :=
  if xmlEsc3 c = "&lt;".data then "<".data else xmlEsc3 c

/-- Blocks after undoing all five substitutions. -/
def xmlEsc5 (c : Char) : List Char :=
  if xmlEsc4 c = "&amp;".data then "&".data else xmlEsc4 c

theorem xmlEsc0_of_ne (c : Char) (h1 : c ≠ '&') (h2 : c ≠ '<') (h3 : c ≠ '>')
    (h4 : c ≠ '"') (h5 : c ≠ '\x27') : xmlEsc0 c = [c] := by
  unfold xmlEsc0
  simp [h1, h2, h3, h4, h5]

theorem xmlEsc1_of_ne (c : Char) (h1 : c ≠ '&') (h2 : c ≠ '<') (h3 : c ≠ '>')
    (h4 : c ≠ '"') (h5 : c ≠ '\x27') : xmlEsc1 c = [c] := by
  unfold xmlEsc1
  rw [xmlEsc0_of_ne c h1 h2 h3 h4 h5, if_neg (by rw [dataApos]; simp)]

theorem xmlEsc2_of_ne (c : Char) (h1 : c ≠ '&') (h2 : c ≠ '<') (h3 : c ≠ '>')
    (h4 : c ≠ '"') (h5 : c ≠ '\x27') : xmlEsc2 c = [c] := by
  unfold xmlEsc2
  rw [xmlEsc1_of_ne c h1 h2 h3 h4 h5, if_neg (by rw [dataQuot]; simp)]

theorem xmlEsc3_of_ne (c : Char) (h1 : c ≠ '&') (h2 : c ≠ '<') (h3 : c ≠ '>')
    (h4 : c ≠ '"') (h5 : c ≠ '\x27') : xmlEsc3 c = [c] := by
  unfold xmlEsc3
  rw [xmlEsc2_of_ne c h1 h2 h3 h4 h5, if_neg (by rw [dataGt]; simp)]

theorem xmlEsc4_of_ne (c : Char) (h1 : c ≠ '&') (h2 : c ≠ '<') (h3 : c ≠ '>')
    (h4 : c ≠ '"') (h5 : c ≠ '\x27') : xmlEsc4 c = [c] := by
  unfold xmlEsc4
  rw [xmlEsc3_of_ne c h1 h2 h3 h4 h5, if_neg (by rw [dataLt]; simp)]

theorem xmlEsc0_tail (c : Char) : '&' ∉ (xmlEsc0 c).drop 1 := by
  unfold xmlEsc0
  split
  · decide
  · split
    · decide
    · split
      · decide
      · split
        · decide
        · split
          · decide
          · simp

theorem xmlEsc1_tail (c : Char) : '&' ∉ (xmlEsc1 c).drop 1 := by
  unfold xmlEsc1
  split
  · decide
  · exact xmlEsc0_tail c

theorem xmlEsc2_tail (c : Char) : '&' ∉ (xmlEsc2 c).drop 1 := by
  unfold xmlEsc2
  split
  · decide
  · exact xmlEsc1_tail c

theorem xmlEsc3_tail (c : Char) : '&' ∉ (xmlEsc3 c).drop 1 := by
  unfold xmlEsc3
  split
  · decide
  · exact xmlEsc2_tail c

theorem xmlEsc4_tail (c : Char) : '&' ∉ (xmlEsc4 c).drop 1 := by
  unfold xmlEsc4
  split
  · decide
  · exact xmlEsc3_tail c

theorem xmlEsc0_mis (c : Char) (h : xmlEsc0 c ≠ '&' :: ['a', 'p', 'o', 's', ';']) :
    ∃ i, i < (xmlEsc0 c).length ∧ i < 6 ∧
      (xmlEsc0 c)[i]? ≠ ('&' :: ['a', 'p', 'o', 's', ';'])[i]? := by
  by_cases h1 : c = '&'
  · subst h1; exact ⟨2, by decide, by decide, by decide⟩
  by_cases h2 : c = '<'
  · subst h2; exact ⟨1, by decide, by decide, by decide⟩
  by_cases h3 : c = '>'
  · subst h3; exact ⟨1, by decide, by decide, by decide⟩
  by_cases h4 : c = '"'
  · subst h4; exact ⟨1, by decide, by decide, by decide⟩
  by_cases h5 : c = '\x27'
  · subst h5; exact absurd (by decide) h
  · have h0 := xmlEsc0_of_ne c h1 h2 h3 h4 h5
    refine ⟨0, by rw [h0]; simp, by decide, ?_⟩
    rw [h0]
    simpa using h1

theorem xmlEsc1_mis (c : Char) (h : xmlEsc1 c ≠ '&' :: ['q', 'u', 'o', 't', ';']) :
    ∃ i, i < (xmlEsc1 c).length ∧ i < 6 ∧
      (xmlEsc1 c)[i]? ≠ ('&' :: ['q', 'u', 'o', 't', ';'])[i]? := by
  by_cases h1 : c = '&'
  · subst h1; exact ⟨1, by decide, by decide, by decide⟩
  by_cases h2 : c = '<'
  · subst h2; exact ⟨1, by decide, by decide, by decide⟩
  by_cases h3 : c = '>'
  · subst h3; exact ⟨1, by decide, by decide, by decide⟩
  by_cases h4 : c = '"'
  · subst h4; exact absurd (by decide) h
  by_cases h5 : c = '\x27'
  · subst h5; exact ⟨0, by decide, by decide, by decide⟩
  · have h0 := xmlEsc1_of_ne c h1 h2 h3 h4 h5
    refine ⟨0, by rw [h0]; simp, by decide, ?_⟩
    rw [h0]
    simpa using h1

theorem xmlEsc2_mis (c : Char) (h : xmlEsc2 c ≠ '&' :: ['g', 't', ';']) :
    ∃ i, i < (xmlEsc2 c).length ∧ i < 4 ∧
      (xmlEsc2 c)[i]? ≠ ('&' :: ['g', 't', ';'])[i]? := by
  by_cases h1 : c = '&'
  · subst h1; exact ⟨1, by decide, by decide, by decide⟩
  by_cases h2 : c = '<'
  · subst h2; exact ⟨1, by decide, by decide, by decide⟩
  by_cases h3 : c = '>'
  · subst h3; exact absurd (by decide) h
  by_cases h4 : c = '"'
  · subst h4; exact ⟨0, by decide, by decide, by decide⟩
  by_cases h5 : c = '\x27'
  · subst h5; exact ⟨0, by decide, by decide, by decide⟩
  · have h0 := xmlEsc2_of_ne c h1 h2 h3 h4 h5
    refine ⟨0, by rw [h0]; simp, by decide, ?_⟩
    rw [h0]
    simpa using h1

theorem xmlEsc3_mis (c : Char) (h : xmlEsc3 c ≠ '&' :: ['l', 't', ';']) :
    ∃ i, i < (xmlEsc3 c).length ∧ i < 4 ∧
      (xmlEsc3 c)[i]? ≠ ('&' :: ['l', 't', ';'])[i]? := by
  by_cases h1 : c = '&'
  · subst h1; exact ⟨1, by decide, by decide, by decide⟩
  by_cases h2 : c = '<'
  · subst h2; exact absurd (by decide) h
  by_cases h3 : c = '>'
  · subst h3; exact ⟨0, by decide, by decide, by decide⟩
  by_cases h4 : c = '"'
  · subst h4; exact ⟨0, by decide, by decide, by decide⟩
  by_cases h5 : c = '\x27'
  · subst h5; exact ⟨0, by decide, by decide, by decide⟩
  · have h0 := xmlEsc3_of_ne c h1 h2 h3 h4 h5
    refine ⟨0, by rw [h0]; simp, by decide, ?_⟩
    rw [h0]
    simpa using h1

theorem xmlEsc4_mis (c : Char) (h : xmlEsc4 c ≠ '&' :: ['a', 'm', 'p', ';']) :
    ∃ i, i < (xmlEsc4 c).length ∧ i < 5 ∧
      (xmlEsc4 c)[i]? ≠ ('&' :: ['a', 'm', 'p', ';'])[i]? := by
  by_cases h1 : c = '&'
  · subst h1; exact absurd (by decide) h
  by_cases h2 : c = '<'
  · subst h2; exact ⟨0, by decide, by decide, by decide⟩
  by_cases h3 : c = '>'
  · subst h3; exact ⟨0, by decide, by decide, by decide⟩
  by_cases h4 : c = '"'
  · subst h4; exact ⟨0, by decide, by decide, by decide⟩
  by_cases h5 : c = '\x27'
  · subst h5; exact ⟨0, by decide, by decide, by decide⟩
  · have h0 := xmlEsc4_of_ne c h1 h2 h3 h4 h5
    refine ⟨0, by rw [h0]; simp, by decide, ?_⟩
    rw [h0]
    simpa using h1

/-- Undoing `&apos;` on the escaped body. -/
theorem unescape_stage1 (s : List Char) :
    replaceAllStr "&apos;".data "\x27".data (s.flatMap xmlEsc0)
      = s.flatMap xmlEsc1 := by
  rw [dataApos]
  exact replaceAllStr_flatMap '&' ['a', 'p', 'o', 's', ';'] "\x27".data xmlEsc0 xmlEsc1
    (fun c => by unfold xmlEsc1; rw [dataApos]) xmlEsc0_tail xmlEsc0_mis s

/-- Undoing `&quot;`. -/
theorem unescape_stage2 (s : List Char) :
    replaceAllStr "&quot;".data "\"".data (s.flatMap xmlEsc1)
      = s.flatMap xmlEsc2 := by
  rw [dataQuot]
  exact replaceAllStr_flatMap '&' ['q', 'u', 'o', 't', ';'] "\"".data xmlEsc1 xmlEsc2
    (fun c => by unfold xmlEsc2; rw [dataQuot]) xmlEsc1_tail xmlEsc1_mis s

/-- Undoing `&gt;`. -/
theorem unescape_stage3 (s : List Char) :
    replaceAllStr "&gt;".data ">".data (s.flatMap xmlEsc2)
      = s.flatMap xmlEsc3 := by
  rw [dataGt]
  exact replaceAllStr_flatMap '&' ['g', 't', ';'] ">".data xmlEsc2 xmlEsc3
    (fun c => by unfold xmlEsc3; rw [dataGt]) xmlEsc2_tail xmlEsc2_mis s

/-- Undoing `&lt;`. -/
theorem unescape_stage4 (s : List Char) :
    replaceAllStr "&lt;".data "<".data (s.flatMap xmlEsc3)
      = s.flatMap xmlEsc4 := by
  rw [dataLt]
  exact replaceAllStr_flatMap '&' ['l', 't', ';'] "<".data xmlEsc3 xmlEsc4
    (fun c => by unfold xmlEsc4; rw [dataLt]) xmlEsc3_tail xmlEsc3_mis s

/-- Undoing `&amp;` last. -/
theorem unescape_stage5 (s : List Char) :
    replaceAllStr "&amp;".data "&".data (s.flatMap xmlEsc4)
      = s.flatMap xmlEsc5 := by
  rw [dataAmp]
  exact replaceAllStr_flatMap '&' ['a', 'm', 'p', ';'] "&".data xmlEsc4 xmlEsc5
    (fun c => by unfold xmlEsc5; rw [dataAmp]) xmlEsc4_tail xmlEsc4_mis s

/-- After undoing all five substitutions every character is itself again. -/
theorem xmlEsc5_eq (c : Char) : xmlEsc5 c = [c] := by
  by_cases h1 : c = '&'
  · subst h1; decide
  by_cases h2 : c = '<'
  · subst h2; decide
  by_cases h3 : c = '>'
  · subst h3; decide
  by_cases h4 : c = '"'
  · subst h4; decide
  by_cases h5 : c = '\x27'
  · subst h5; decide
  · unfold xmlEsc5
    rw [xmlEsc4_of_ne c h1 h2 h3 h4 h5, if_neg (by rw [dataAmp]; simp)]

theorem xmlEsc5_id (l : List Char) : l.flatMap xmlEsc5 = l := by
  rw [funext xmlEsc5_eq, List.flatMap_singleton']

/-- Reversing the five substitutions on the escaped body returns the original
content. -/
theorem unescapeXml_escape (s : String) : unescapeXml (escapeXmlContent s) = s := by
  apply String.ext
  show replaceAllStr "&amp;".data "&".data
      (replaceAllStr "&lt;".data "<".data
        (replaceAllStr "&gt;".data ">".data
          (replaceAllStr "&quot;".data "\"".data
            (replaceAllStr "&apos;".data "\x27".data
              (escapeXmlContent s).data)))) = s.data
  rw [escapeXmlContent_data, unescape_stage1, unescape_stage2, unescape_stage3,
    unescape_stage4, unescape_stage5, xmlEsc5_id]

theorem xmlEsc0_no_lt (a : Char) : '<' ∉ xmlEsc0 a := by
  by_cases h1 : a = '&'
  · subst h1; decide
  by_cases h2 : a = '<'
  · subst h2; decide
  by_cases h3 : a = '>'
  · subst h3; decide
  by_cases h4 : a = '"'
  · subst h4; decide
  by_cases h5 : a = '\x27'
  · subst h5; decide
  · rw [xmlEsc0_of_ne a h1 h2 h3 h4 h5, List.mem_singleton]
    exact fun hh => h2 hh.symm

theorem xmlEsc0_no_gt (a : Char) : '>' ∉ xmlEsc0 a := by
  by_cases h1 : a = '&'
  · subst h1; decide
  by_cases h2 : a = '<'
  · subst h2; decide
  by_cases h3 : a = '>'
  · subst h3; decide
  by_cases h4 : a = '"'
  · subst h4; decide
  by_cases h5 : a = '\x27'
  · subst h5; decide
  · rw [xmlEsc0_of_ne a h1 h2 h3 h4 h5, List.mem_singleton]
    exact fun hh => h3 hh.symm

theorem xmlEsc0_no_quot (a : Char) : '"' ∉ xmlEsc0 a := by
  by_cases h1 : a = '&'
  · subst h1; decide
  by_cases h2 : a = '<'
  · subst h2; decide
  by_cases h3 : a = '>'
  · subst h3; decide
  by_cases h4 : a = '"'
  · subst h4; decide
  by_cases h5 : a = '\x27'
  · subst h5; decide
  · rw [xmlEsc0_of_ne a h1 h2 h3 h4 h5, List.mem_singleton]
    exact fun hh => h4 hh.symm

theorem xmlEsc0_no_apos (a : Char) : '\x27' ∉ xmlEsc0 a := by
  by_cases h1 : a = '&'
  · subst h1; decide
  by_cases h2 : a = '<'
  · subst h2; decide
  by_cases h3 : a = '>'
  · subst h3; decide
  by_cases h4 : a = '"'
  · subst h4; decide
  by_cases h5 : a = '\x27'
  · subst h5; decide
  · rw [xmlEsc0_of_ne a h1 h2 h3 h4 h5, List.mem_singleton]
    exact fun hh => h5 hh.symm

/-- An ampersand inside one block sits at its start, and that block is one of
the five entities. -/
theorem xmlEsc0_amp_pos (c : Char) (i : Nat) (h : (xmlEsc0 c)[i]? = some '&') :
    i = 0 ∧ xmlEsc0 c ∈ xmlEntities := by
  rcases Nat.eq_zero_or_pos i with rfl | hpos
  · refine ⟨rfl, ?_⟩
    by_cases h1 : c = '&'
    · subst h1; decide
    by_cases h2 : c = '<'
    · subst h2; decide
    by_cases h3 : c = '>'
    · subst h3; decide
    by_cases h4 : c = '"'
    · subst h4; decide
    by_cases h5 : c = '\x27'
    · subst h5; decide
    · rw [xmlEsc0_of_ne c h1 h2 h3 h4 h5] at h
      simp at h
      exact absurd h h1
  · exfalso
    refine xmlEsc0_tail c ?_
    have hh : ((xmlEsc0 c).drop 1)[i - 1]? = some '&' := by
      rw [List.getElem?_drop, show 1 + (i - 1) = i by omega]
      exact h
    exact List.getElem?_mem hh

/-- Every ampersand in the escaped body starts one of the five entities. -/
theorem amp_entity_start : ∀ (s : List Char) (i : Nat),
    (s.flatMap xmlEsc0)[i]? = some '&' →
    ∃ e ∈ xmlEntities, e.isPrefixOf ((s.flatMap xmlEsc0).drop i)
  | [], i, h => by simp at h
  | c :: s, i, h => by
    rw [List.flatMap_cons] at h ⊢
    by_cases hi : i < (xmlEsc0 c).length
    · rw [List.getElem?_append_left hi] at h
      obtain ⟨rfl, hent⟩ := xmlEsc0_amp_pos c i h
      refine ⟨xmlEsc0 c, hent, ?_⟩
      rw [List.drop_zero, List.isPrefixOf_iff_prefix]
      exact List.prefix_append _ _
    · push_neg at hi
      rw [List.getElem?_append_right hi] at h
      obtain ⟨e, he, hpre⟩ := amp_entity_start s (i - (xmlEsc0 c).length) h
      refine ⟨e, he, ?_⟩
      rw [show i = (xmlEsc0 c).length + (i - (xmlEsc0 c).length) by omega,
        List.drop_append]
      exact hpre

/-- C1: the converter escapes the five reserved characters (ampersand first,
then `<`, `>`, `"`, `'` — the order of `escapeXmlContent`); the element body
contains no raw `<`, `>`, `"`, `'`, every `&` in it starts one of the five
entities, and reversing the five substitutions reproduces the content
exactly, for every content string. -/
theorem xml_escape_round_trip (content : String) :
    ('<' ∉ (escapeXmlContent content).data ∧ '>' ∉ (escapeXmlContent content).data ∧
     '"' ∉ (escapeXmlContent content).data ∧ '\x27' ∉ (escapeXmlContent content).data) ∧
    (∀ i, ((escapeXmlContent content).data)[i]? = some '&' →
      ∃ e ∈ xmlEntities, e.isPrefixOf ((escapeXmlContent content).data.drop i)) ∧
    unescapeXml (escapeXmlContent content) = content := by
  refine ⟨⟨?_, ?_, ?_, ?_⟩, ?_, unescapeXml_escape content⟩
  · rw [escapeXmlContent_data]
    intro hmem
    obtain ⟨a, _, hin⟩ := List.mem_flatMap.mp hmem
    exact xmlEsc0_no_lt a hin
  · rw [escapeXmlContent_data]
    intro hmem
    obtain ⟨a, _, hin⟩ := List.mem_flatMap.mp hmem
    exact xmlEsc0_no_gt a hin
  · rw [escapeXmlContent_data]
    intro hmem
    obtain ⟨a, _, hin⟩ := List.mem_flatMap.mp hmem
    exact xmlEsc0_no_quot a hin
  · rw [escapeXmlContent_data]
    intro hmem
    obtain ⟨a, _, hin⟩ := List.mem_flatMap.mp hmem
    exact xmlEsc0_no_apos a hin
  · rw [escapeXmlContent_data]
    exact amp_entity_start content.data

/-! ## Claim C6: JSON round trip

`JSON.parse` restricted to what `JSON.stringify(data, null, 2)` emits for this
record shape: a JSON string-literal body parser handling the standard escape
sequences, and a parser for the fixed two-property object layout. -/

/-- Value of one hexadecimal digit (JSON accepts both cases). -/
def hexVal (c : Char) : Option Nat :=
  if '0' ≤ c ∧ c ≤ '9' then some (c.toNat - '0'.toNat)
  else if 'a' ≤ c ∧ c ≤ 'f' then some (c.toNat - 'a'.toNat + 10)
  else if 'A' ≤ c ∧ c ≤ 'F' then some (c.toNat - 'A'.toNat + 10)
  else none

/-- Decode one JSON escape sequence (the characters after a backslash);
returns the decoded character and the remaining input. -/
def decodeEscape : List Char → Option (Char × List Char)
  | [] => none
  | e :: r =>
    if e = '"' then some ('"', r)
    else if e = '\\' then some ('\\', r)
    else if e = '/' then some ('/', r)
    else if e = 'b' then some ('\x08', r)
    else if e = 'f' then some ('\x0c', r)
    else if e = 'n' then some ('\n', r)
    else if e = 'r' then some ('\r', r)
    else if e = 't' then some ('\t', r)
    else if e = 'u' then
      match r with
      | h1 :: h2 :: h3 :: h4 :: r2 =>
        match hexVal h1, hexVal h2, hexVal h3, hexVal h4 with
        | some va, some vb, some vc, some vd =>
          some (Char.ofNat (((va * 16 + vb) * 16 + vc) * 16 + vd), r2)
        | _, _, _, _ => none
      | _ => none
    else none

/-- Parse a JSON string-literal body up to and including the closing quote;
returns the decoded characters and the input after the quote.  The fuel
argument only bounds recursion; one unit per decoded character suffices. -/
def parseJsonStringBody : Nat → List Char → Option (List Char × List Char)
  | 0, _ => none
  | _ + 1, [] => none
  | fuel + 1, c :: rest =>
    if c = '"' then some ([], rest)
    else if c = '\\' then
      match decodeEscape rest with
      | none => none
      | some (d, r) =>
        match parseJsonStringBody fuel r with
        | none => none
        | some (cs, r2) => some (d :: cs, r2)
    else
      match parseJsonStringBody fuel rest with
      | none => none
      | some (cs, r2) => some (c :: cs, r2)

theorem parseJson_cons (fuel : Nat) (c : Char) (rest : List Char) :
    parseJsonStringBody (fuel + 1) (c :: rest)
      = if c = '"' then some ([], rest)
        else if c = '\\' then
          match decodeEscape rest with
          | none => none
          | some (d, r) =>
            match parseJsonStringBody fuel r with
            | none => none
            | some (cs, r2) => some (d :: cs, r2)
        else
          match parseJsonStringBody fuel rest with
          | none => none
          | some (cs, r2) => some (c :: cs, r2) := rfl

/-- `hexVal` inverts the digit printer on digit values. -/
theorem hexVal_hexDigitChar : ∀ n, n < 16 → hexVal (hexDigitChar n) = some n := by
  decide

/-- The escaping of one character always emits at least one character. -/
theorem escJsonChar_length (c : Char) : 1 ≤ (escJsonChar c).length := by
  unfold escJsonChar
  split
  · decide
  · split
    · decide
    · split
      · decide
      · split
        · decide
        · split
          · decide
          · split
            · decide
            · split
              · decide
              · split
                · simp
                · simp

/-- Escaped strings are at least as long as their sources. -/
theorem flatMap_escJsonChar_length : ∀ s : List Char,
    s.length ≤ (s.flatMap escJsonChar).length
  | [] => by simp
  | c :: s => by
    rw [List.flatMap_cons, List.length_append]
    have h1 := escJsonChar_length c
    have h2 := flatMap_escJsonChar_length s
    simp only [List.length_cons]
    omega

/-- Round trip of the string-literal layer: parsing the escaped characters
followed by a closing quote recovers the original characters and leaves the
rest untouched. -/
theorem parseJsonStringBody_round : ∀ (s rest : List Char) (fuel : Nat),
    s.length + 1 ≤ fuel →
    parseJsonStringBody fuel (s.flatMap escJsonChar ++ '"' :: rest) = some (s, rest)
  | [], rest, fuel, hf => by
    match fuel, hf with
    | fuel + 1, _ => simp [parseJsonStringBody]
  | c :: s, rest, fuel, hf => by
    match fuel, hf with
    | fuel + 1, hf =>
      have hf' : s.length + 1 ≤ fuel := by
        simp only [List.length_cons] at hf
        omega
      have ih := parseJsonStringBody_round s rest fuel hf'
      rw [List.flatMap_cons, List.append_assoc]
      by_cases h1 : c = '"'
      · subst h1
        rw [show escJsonChar '"' = ['\\', '"'] from rfl]
        simp [parseJson_cons, decodeEscape, ih]
      by_cases h2 : c = '\\'
      · subst h2
        rw [show escJsonChar '\\' = ['\\', '\\'] from rfl]
        simp [parseJson_cons, decodeEscape, ih]
      by_cases h3 : c = '\x08'
      · subst h3
        rw [show escJsonChar '\x08' = ['\\', 'b'] from rfl]
        simp [parseJson_cons, decodeEscape, ih]
      by_cases h4 : c = '\t'
      · subst h4
        rw [show escJsonChar '\t' = ['\\', 't'] from rfl]
        simp [parseJson_cons, decodeEscape, ih]
      by_cases h5 : c = '\n'
      · subst h5
        rw [show escJsonChar '\n' = ['\\', 'n'] from rfl]
        simp [parseJson_cons, decodeEscape, ih]
      by_cases h6 : c = '\x0c'
      · subst h6
        rw [show escJsonChar '\x0c' = ['\\', 'f'] from rfl]
        simp [parseJson_cons, decodeEscape, ih]
      by_cases h7 : c = '\r'
      · subst h7
        rw [show escJsonChar '\r' = ['\\', 'r'] from rfl]
        simp [parseJson_cons, decodeEscape, ih]
      by_cases hc : c.toNat < 0x20
      · have hblock : escJsonChar c = ['\\', 'u', '0', '0',
            hexDigitChar (c.toNat / 16), hexDigitChar (c.toNat % 16)] := by
          unfold escJsonChar
          rw [if_neg h1, if_neg h2, if_neg h3, if_neg h4, if_neg h5, if_neg h6,
            if_neg h7, if_pos hc]
        have hv1 : hexVal (hexDigitChar (c.toNat / 16)) = some (c.toNat / 16) :=
          hexVal_hexDigitChar _ (by omega)
        have hv2 : hexVal (hexDigitChar (c.toNat % 16)) = some (c.toNat % 16) :=
          hexVal_hexDigitChar _ (by omega)
        have harith : c.toNat / 16 * 16 + c.toNat % 16 = c.toNat := by omega
        have hdec : decodeEscape ('u' :: '0' :: '0' :: hexDigitChar (c.toNat / 16) ::
            hexDigitChar (c.toNat % 16) :: (s.flatMap escJsonChar ++ '"' :: rest))
            = some (c, s.flatMap escJsonChar ++ '"' :: rest) := by
          simp [decodeEscape, show hexVal '0' = some 0 from rfl, hv1, hv2, harith]
        rw [hblock]
        simp [parseJson_cons, hdec, ih]
      · have hblock : escJsonChar c = [c] := by
          unfold escJsonChar
          rw [if_neg h1, if_neg h2, if_neg h3, if_neg h4, if_neg h5, if_neg h6,
            if_neg h7, if_neg hc]
        rw [hblock]
        rw [List.cons_append, parseJson_cons, if_neg h1, if_neg h2]
        simp [ih]

/-- Consume an expected literal prefix. -/
def parseLit (lit s : List Char) : Option (List Char) :=
  if lit.isPrefixOf s then some (s.drop lit.length) else none

theorem parseLit_append (lit r : List Char) : parseLit lit (lit ++ r) = some r := by
  unfold parseLit
  rw [if_pos (by rw [List.isPrefixOf_iff_prefix]; exact List.prefix_append _ _),
    List.drop_left]

/-- Parse the non-empty record list of the pretty-printed array: records in
the fixed two-property layout, separated by `",\n"`, closed by `"\n]"`.  The
fuel bounds the number of records. -/
def parseRecords : Nat → List Char → Option (List FileRecord)
  | 0, _ => none
  | fuel + 1, s =>
    match parseLit litRecordOpen s with
    | none => none
    | some s1 =>
      match parseJsonStringBody (s1.length + 1) s1 with
      | none => none
      | some (name, s2) =>
        match parseLit litRecordMid s2 with
        | none => none
        | some s3 =>
          match parseJsonStringBody (s3.length + 1) s3 with
          | none => none
          | some (content, s4) =>
            match parseLit litRecordClose s4 with
            | none => none
            | some s5 =>
              match parseLit litSep s5 with
              | some s6 =>
                match parseRecords fuel s6 with
                | none => none
                | some rs => some (⟨⟨name⟩, ⟨content⟩⟩ :: rs)
              | none =>
                match parseLit litEnd s5 with
                | some s7 => if s7 = [] then some [⟨⟨name⟩, ⟨content⟩⟩] else none
                | none => none

theorem parseRecords_eq (fuel : Nat) (s : List Char) :
    parseRecords (fuel + 1) s
      = match parseLit litRecordOpen s with
        | none => none
        | some s1 =>
          match parseJsonStringBody (s1.length + 1) s1 with
          | none => none
          | some (name, s2) =>
            match parseLit litRecordMid s2 with
            | none => none
            | some s3 =>
              match parseJsonStringBody (s3.length + 1) s3 with
              | none => none
              | some (content, s4) =>
                match parseLit litRecordClose s4 with
                | none => none
                | some s5 =>
                  match parseLit litSep s5 with
                  | some s6 =>
                    match parseRecords fuel s6 with
                    | none => none
                    | some rs => some (⟨⟨name⟩, ⟨content⟩⟩ :: rs)
                  | none =>
                    match parseLit litEnd s5 with
                    | some s7 => if s7 = [] then some [⟨⟨name⟩, ⟨content⟩⟩] else none
                    | none => none := rfl

/-- `JSON.parse` of the full representation of the given record shape:
`"[]"` is the empty list; otherwise `"[\n"`, the records, `"\n]"`. -/
def parseExport (s : String) : Option (List FileRecord) :=
  if s = "[]" then some []
  else
    match parseLit "[\n".data s.data with
    | none => none
    | some r => parseRecords (r.length + 1) r

/-- Parsing one serialized record followed by anything: the layout literals
and the two string round trips reduce to the separator decision. -/
theorem parseRecords_cons_eq (fuel : Nat) (r : FileRecord) (tail : List Char) :
    parseRecords (fuel + 1) (serRecord r ++ tail)
      = match parseLit litSep tail with
        | some s6 =>
          (match parseRecords fuel s6 with
           | none => none
           | some rs => some (r :: rs))
        | none =>
          (match parseLit litEnd tail with
           | some s7 => if s7 = [] then some [r] else none
           | none => none) := by
  have hshape : serRecord r ++ tail
      = litRecordOpen ++ (r.fileName.data.flatMap escJsonChar ++ '"' ::
          (litRecordMid ++ (r.content.data.flatMap escJsonChar ++ '"' ::
            (litRecordClose ++ tail)))) := by
    simp [serRecord, List.append_assoc]
  have hb1 : r.fileName.data.length + 1
      ≤ (r.fileName.data.flatMap escJsonChar ++ '"' ::
          (litRecordMid ++ (r.content.data.flatMap escJsonChar ++ '"' ::
            (litRecordClose ++ tail)))).length + 1 := by
    have hq := flatMap_escJsonChar_length r.fileName.data
    simp only [List.length_append, List.length_cons]
    omega
  have hname := parseJsonStringBody_round r.fileName.data
    (litRecordMid ++ (r.content.data.flatMap escJsonChar ++ '"' ::
      (litRecordClose ++ tail))) _ hb1
  have hb2 : r.content.data.length + 1
      ≤ (r.content.data.flatMap escJsonChar ++ '"' ::
          (litRecordClose ++ tail)).length + 1 := by
    have hq := flatMap_escJsonChar_length r.content.data
    simp only [List.length_append, List.length_cons]
    omega
  have hcont := parseJsonStringBody_round r.content.data
    (litRecordClose ++ tail) _ hb2
  rw [parseRecords_eq, hshape, parseLit_append]
  simp only [hname, hcont, parseLit_append]

/-- Each serialized record is non-empty. -/
theorem serRecord_length_pos (r : FileRecord) : 1 ≤ (serRecord r).length := by
  simp only [serRecord, List.length_append]
  have h1 : 1 ≤ litRecordOpen.length := by decide
  omega

/-- At least one character per record in the joined serialization. -/
theorem intercalate_serRecord_length : ∀ rs : List FileRecord,
    rs.length ≤ (List.intercalate litSep (rs.map serRecord)).length
  | [] => by simp
  | [r] => by
    rw [List.map_cons, List.map_nil, intercalate_singleton]
    have := serRecord_length_pos r
    simpa using this
  | r :: r' :: rs => by
    rw [List.map_cons, List.map_cons, intercalate_cons_cons, ← List.map_cons]
    have h1 := serRecord_length_pos r
    have h2 := intercalate_serRecord_length (r' :: rs)
    simp only [List.length_append, List.length_cons] at *
    omega

/-- The record-list parser inverts the serialization of any non-empty record
list, given fuel for the record count. -/
theorem parseRecords_round : ∀ (rs : List FileRecord) (fuel : Nat),
    rs ≠ [] → rs.length ≤ fuel →
    parseRecords fuel (List.intercalate litSep (rs.map serRecord) ++ litEnd) = some rs
  | [], _, h, _ => absurd rfl h
  | [r], fuel, _, hf => by
    match fuel, hf with
    | fuel + 1, _ =>
      rw [List.map_cons, List.map_nil, intercalate_singleton, parseRecords_cons_eq]
      rw [show parseLit litSep litEnd = none from by decide]
      rw [show parseLit litEnd litEnd = some [] from by decide]
      rfl
  | r :: r' :: rs, fuel, _, hf => by
    match fuel, hf with
    | fuel + 1, hf =>
      have ih := parseRecords_round (r' :: rs) fuel (by simp)
        (by simp only [List.length_cons] at hf ⊢; omega)
      rw [List.map_cons, List.map_cons, intercalate_cons_cons, ← List.map_cons,
        List.append_assoc, List.append_assoc, parseRecords_cons_eq, parseLit_append]
      simp only [ih]

/-- C6: for every non-empty record sequence, `JSON.parse` of the
2-space pretty-printed `JSON.stringify` output reproduces exactly the
original ordered sequence of records with their field names and exact string
values. -/
theorem json_round_trip (records : List FileRecord) (h : records ≠ []) :
    parseExport (jsonStringifyRecords records) = some records := by
  match records, h with
  | r :: rs, _ =>
    have hlen := intercalate_serRecord_length (r :: rs)
    have hne : (⟨"[\n".data ++ List.intercalate litSep ((r :: rs).map serRecord)
        ++ litEnd⟩ : String) ≠ "[]" := by
      intro heq
      have hd := congrArg String.data heq
      have h1 := congrArg (fun l => l[1]?) hd
      rw [show "[\n".data = ['[', '\n'] from rfl] at h1
      simp at h1
    show parseExport ⟨"[\n".data ++ List.intercalate litSep ((r :: rs).map serRecord)
        ++ litEnd⟩ = some (r :: rs)
    unfold parseExport
    rw [if_neg hne]
    rw [show (⟨"[\n".data ++ List.intercalate litSep ((r :: rs).map serRecord)
        ++ litEnd⟩ : String).data
        = "[\n".data ++ (List.intercalate litSep ((r :: rs).map serRecord) ++ litEnd)
        from by simp [List.append_assoc]]
    rw [parseLit_append]
    refine parseRecords_round (r :: rs) _ (by simp) ?_
    simp only [List.length_append, List.length_cons] at *
    omega

/-- Witness for C6: a one-record list round-trips through the JSON export. -/
theorem json_round_trip_app :
    parseExport (jsonStringifyRecords [⟨"a.txt", "hi"⟩]) = some [⟨"a.txt", "hi"⟩] :=
  json_round_trip [⟨"a.txt", "hi"⟩] (by simp)
